import Mathlib

/-!
Verification of the interactive line-editing geometry engine of the
ds-map-tool repository: segment/ray intersection primitives, arc-length
parameterization and slicing of polylines, intersection discovery,
the trim / extend / break operations, and the aligned-dimension
geometry generator.  All functions are shallowly embedded over `ℝ`
(JavaScript numbers are modelled as real numbers, numeric literal
tolerances kept verbatim).
-/

namespace DsMapTool

noncomputable section

/-- A planar coordinate `(x, y)`, as the engine's `Coordinate` pairs. -/
abbrev Coordinate : Type := ℝ × ℝ

/-- Euclidean distance, `dist` from the trim utilities:
`Math.sqrt((a[0] - b[0]) ** 2 + (a[1] - b[1]) ** 2)`. -/
def dist (a b : Coordinate) : ℝ :=
  Real.sqrt ((a.1 - b.1) ^ 2 + (a.2 - b.2) ^ 2)

/-- `segmentIntersection(a, b, c, d)`: parametric segment-segment
intersection; `null` (here `none`) when the denominator is within
`1e-10` of zero (parallel) or the parameters fall outside `[0, 1]`. -/
def segmentIntersection (a b c d : Coordinate) : Option Coordinate :=
  let dx1 := b.1 - a.1
  let dy1 := b.2 - a.2
  let dx2 := d.1 - c.1
  let dy2 := d.2 - c.2
  let denom := dx1 * dy2 - dy1 * dx2
  if |denom| < 1e-10 then none
  else
    let t := ((c.1 - a.1) * dy2 - (c.2 - a.2) * dx2) / denom
    let u := ((c.1 - a.1) * dy1 - (c.2 - a.2) * dx1) / denom
    if 0 ≤ t ∧ t ≤ 1 ∧ 0 ≤ u ∧ u ≤ 1 then
      some (a.1 + t * dx1, a.2 + t * dy1)
    else none

/-- The consecutive segment pairs of a polyline, i.e. the pairs
`(coords[i], coords[i+1])` iterated by every `for (i; i < length - 1)`
loop of the engine. -/
def segments (coords : List Coordinate) : List (Coordinate × Coordinate) :=
  coords.zip coords.tail

/-- One iteration of the `parameterizeAlongLine` loop: for the segment
`(a, b)` returns `(t * segLen, d, segLen)` where `t` is the clamped
projection parameter of `point` on the segment and `d` the distance
from `point` to the projected point. -/
def segProj (point a b : Coordinate) : ℝ × ℝ × ℝ :=
  let dx := b.1 - a.1
  let dy := b.2 - a.2
  let segLen := Real.sqrt (dx * dx + dy * dy)
  let t :=
    if segLen > 1e-10 then
      max 0 (min 1 (((point.1 - a.1) * dx + (point.2 - a.2) * dy) / (segLen * segLen)))
    else 0
  let px := a.1 + t * dx
  let py := a.2 + t * dy
  (t * segLen, Real.sqrt ((point.1 - px) ^ 2 + (point.2 - py) ^ 2), segLen)

/-- The state-passing loop of `parameterizeAlongLine`: carries
`closestT`, `closestDist` (`none` models the initial `Infinity`), and
`accumulated`. -/
def parameterizeAux (point : Coordinate) :
    List (Coordinate × Coordinate) → ℝ → Option ℝ → ℝ → ℝ
  | [], closestT, _, _ => closestT
  | (a, b) :: rest, closestT, closestDist, accumulated =>
    let pr := segProj point a b
    let improves : Bool :=
      match closestDist with
      | none => true
      | some cd => decide (pr.2.1 < cd)
    if improves then
      parameterizeAux point rest (accumulated + pr.1) (some pr.2.1) (accumulated + pr.2.2)
    else
      parameterizeAux point rest closestT closestDist (accumulated + pr.2.2)

/-- `parameterizeAlongLine(lineCoords, point)`: arc-length parameter of
the globally closest clamped projection of `point` on the polyline. -/
def parameterizeAlongLine (lineCoords : List Coordinate) (point : Coordinate) : ℝ :=
  parameterizeAux point (segments lineCoords) 0 none 0

/-- `totalArcLength(coords)`: sum of the segment lengths. -/
def totalArcLength : List Coordinate → ℝ
  | a :: b :: rest => dist a b + totalArcLength (b :: rest)
  | _ => 0

/-- Result of `sliceAtParameter`. -/
structure SliceResult where
  before : List Coordinate
  after : List Coordinate

/-- The walking loop of `sliceAtParameter`; `acc` is the prefix of
vertices already passed (`coords.slice(0, i)`). -/
def sliceAux (t : ℝ) : List Coordinate → List Coordinate → ℝ → SliceResult
  | acc, a :: b :: rest, accumulated =>
    let segLen := dist a b
    if accumulated + segLen ≥ t - 1e-10 then
      let localT := (t - accumulated) / max segLen 1e-10
      let clamped := max 0 (min 1 localT)
      let cutPoint : Coordinate :=
        (a.1 + clamped * (b.1 - a.1), a.2 + clamped * (b.2 - a.2))
      ⟨(acc ++ [a]) ++ [cutPoint], cutPoint :: b :: rest⟩
    else
      sliceAux t (acc ++ [a]) (b :: rest) (accumulated + segLen)
  | acc, l, _ =>
    ⟨acc ++ l, match (acc ++ l).getLast? with
               | some p => [p]
               | none => []⟩

/-- `sliceAtParameter(coords, t)`: cuts the polyline at arc-length `t`,
returning the chain up to and including the cut point and the chain
from the cut point onward. -/
def sliceAtParameter (coords : List Coordinate) (t : ℝ) : SliceResult :=
  sliceAux t [] coords 0

/-- An intersection record: crossing point plus its arc-length
position on the target line. -/
structure TrimIntersection where
  coordinate : Coordinate
  parameter : ℝ

/-- Raw accepted crossing points of the target polyline against the
candidate edge chains, in the loop order of `findAllIntersections`
(chains outer, target segments middle, chain segments inner). -/
def collectIntersections (targetCoords : List Coordinate)
    (chains : List (List Coordinate)) : List Coordinate :=
  chains.flatMap fun edgeChain =>
    (segments targetCoords).flatMap fun st =>
      (segments edgeChain).filterMap fun so =>
        segmentIntersection st.1 st.2 so.1 so.2

/-- The dedup key of `findAllIntersections`:
`pt[0].toFixed(4) + "," + pt[1].toFixed(4)`, modelled as both
components rounded to 4 decimal places. -/
def roundKey (p : Coordinate) : ℤ × ℤ :=
  (round (p.1 * 10000), round (p.2 * 10000))

/-- The `seen`-set filtering of `findAllIntersections`: keeps the
first point of every rounding-key class, in order. -/
def dedupByKey : List Coordinate → List (ℤ × ℤ) → List Coordinate
  | [], _ => []
  | pt :: rest, seen =>
    if roundKey pt ∈ seen then dedupByKey rest seen
    else pt :: dedupByKey rest (roundKey pt :: seen)

/-- `findAllIntersections(targetFeature, vectorSource)` with the
feature-store plumbing stripped: the target is a coordinate chain and
the other features are given by their edge chains.  Deduplicates by
rounded key, attaches the arc-length parameter on the target, and
sorts ascending by parameter. -/
def findAllIntersections (targetCoords : List Coordinate)
    (chains : List (List Coordinate)) : List TrimIntersection :=
  (((dedupByKey (collectIntersections targetCoords chains) []).map fun pt =>
      TrimIntersection.mk pt (parameterizeAlongLine targetCoords pt))).mergeSort
    fun x y => decide (x.parameter ≤ y.parameter)

/-- The left/right neighbour scan of `computeTrim`: walks the
intersections tracking the last index whose parameter is `≤ click`
and the first index whose parameter is `≥ click` (indices paired with
their parameters; `none` models `-1`). -/
def trimScan (click : ℝ) :
    List TrimIntersection → ℕ → Option (ℕ × ℝ) → Option (ℕ × ℝ) →
      Option (ℕ × ℝ) × Option (ℕ × ℝ)
  | [], _, leftIdx, rightIdx => (leftIdx, rightIdx)
  | x :: rest, i, leftIdx, rightIdx =>
    let leftIdx' := if x.parameter ≤ click then some (i, x.parameter) else leftIdx
    let rightIdx' :=
      if rightIdx = none ∧ x.parameter ≥ click then some (i, x.parameter) else rightIdx
    trimScan click rest (i + 1) leftIdx' rightIdx'

/-- Result of `computeTrim`: surviving chains plus the removed
`[start, end]` interval. -/
structure TrimResult where
  remainingSegments : List (List Coordinate)
  trimmedInterval : ℝ × ℝ

/-- The start/end selection of `computeTrim`'s three cases: no left
neighbour → `[0, right]`; no right neighbour or `left == right` →
`[left, totalLen]`; both present and distinct → `[left, right]`. -/
def trimInterval (l r : Option (ℕ × ℝ)) (totalLen : ℝ) : ℝ × ℝ :=
  match l, r with
  | none, some (_, rp) => (0, rp)
  | none, none => (0, 0)
  | some (_, lp), none => (lp, totalLen)
  | some (li, lp), some (ri, rp) =>
    if ri = li then (lp, totalLen) else (lp, rp)

/-- `computeTrim(targetCoords, intersections, clickParameter)`:
determines the removable interval from the neighbour scan, slices the
target at both ends, and keeps the chains with at least 2 coordinates. -/
def computeTrim (targetCoords : List Coordinate)
    (intersections : List TrimIntersection) (clickParameter : ℝ) :
    Option TrimResult :=
  if intersections.length = 0 then none
  else
    let totalLen := totalArcLength targetCoords
    let scan := trimScan clickParameter intersections 0 none none
    let se : ℝ × ℝ := trimInterval scan.1 scan.2 totalLen
    let beforeEnd := (sliceAtParameter targetCoords se.1).before
    let afterStart := (sliceAtParameter targetCoords se.2).after
    let remaining :=
      (if beforeEnd.length ≥ 2 then [beforeEnd] else []) ++
        (if afterStart.length ≥ 2 then [afterStart] else [])
    some ⟨remaining, se⟩

/-- `raySegmentIntersection(rayOrigin, rayDir, c, d)`: intersection of
a forward ray with a bounded segment; accepts `t > 1e-6` and
`u ∈ [0, 1]`. -/
def raySegmentIntersection (rayOrigin rayDir c d : Coordinate) :
    Option (Coordinate × ℝ) :=
  let dx2 := d.1 - c.1
  let dy2 := d.2 - c.2
  let denom := rayDir.1 * dy2 - rayDir.2 * dx2
  if |denom| < 1e-10 then none
  else
    let t := ((c.1 - rayOrigin.1) * dy2 - (c.2 - rayOrigin.2) * dx2) / denom
    let u := ((c.1 - rayOrigin.1) * rayDir.2 - (c.2 - rayOrigin.2) * rayDir.1) / denom
    if t > 1e-6 ∧ 0 ≤ u ∧ u ≤ 1 then
      some ((rayOrigin.1 + t * rayDir.1, rayOrigin.2 + t * rayDir.2), t)
    else none

/-- Which end of a line an extend operation works on. -/
inductive Endpoint where
  | start : Endpoint
  | endp : Endpoint

/-- `getEndpointDirection(coords, endpoint)`: outward vector at the
chosen endpoint (second point toward first for `start`, second-to-last
toward last for `end`). -/
def getEndpointDirection (coords : List Coordinate) (endpoint : Endpoint) :
    Coordinate :=
  match endpoint with
  | .start =>
    ((coords.getD 0 (0, 0)).1 - (coords.getD 1 (0, 0)).1,
     (coords.getD 0 (0, 0)).2 - (coords.getD 1 (0, 0)).2)
  | .endp =>
    let n := coords.length
    ((coords.getD (n - 1) (0, 0)).1 - (coords.getD (n - 2) (0, 0)).1,
     (coords.getD (n - 1) (0, 0)).2 - (coords.getD (n - 2) (0, 0)).2)

/-- All forward ray hits of `computeExtend`, in the loop order (chains
outer, edges inner), before the nearest-hit selection. -/
def extendHits (coords : List Coordinate) (endpoint : Endpoint)
    (chains : List (List Coordinate)) : List (Coordinate × ℝ) :=
  let rayOrigin :=
    match endpoint with
    | .start => coords.getD 0 (0, 0)
    | .endp => coords.getD (coords.length - 1) (0, 0)
  let rayDir := getEndpointDirection coords endpoint
  chains.flatMap fun edgeChain =>
    (segments edgeChain).filterMap fun so =>
      raySegmentIntersection rayOrigin rayDir so.1 so.2

/-- Folds the hit list exactly as the source loop does:
`if (hit && (!nearestHit || hit.t < nearestHit.t)) nearestHit = hit`. -/
def selectNearest (hits : List (Coordinate × ℝ)) : Option (Coordinate × ℝ) :=
  hits.foldl
    (fun acc h =>
      match acc with
      | none => some h
      | some a => if h.2 < a.2 then some h else some a)
    none

/-- Result of `computeExtend`. -/
structure ExtendResult where
  intersectionPoint : Coordinate
  endpoint : Endpoint
  newCoords : List Coordinate

/-- The index of the chosen endpoint in the coordinate array: `0` for
`start`, `length - 1` for `end`. -/
def endpointIndex (coords : List Coordinate) : Endpoint → ℕ
  | .start => 0
  | .endp => coords.length - 1

/-- `computeExtend(targetFeature, endpoint, vectorSource)` with the
feature store stripped to edge chains: casts the outward ray from the
chosen endpoint, keeps the nearest forward hit over every edge of every
other feature, and replaces just that endpoint in the chain. -/
def computeExtend (coords : List Coordinate) (endpoint : Endpoint)
    (chains : List (List Coordinate)) : Option ExtendResult :=
  if coords.length < 2 then none
  else
    match selectNearest (extendHits coords endpoint chains) with
    | none => none
    | some hit =>
      some ⟨hit.1, endpoint, coords.set (endpointIndex coords endpoint) hit.1⟩

/-- Result of `closestPointOnLine` in the break tool. -/
structure ClosestPointResult where
  fractionalIndex : ℝ
  point : Coordinate
  distance : Option ℝ

/-- The loop of the break tool's `closestPointOnLine`: `bestDist` is
`none` for the initial `Infinity`; `i` is the current segment index. -/
def closestPointAux (coord : Coordinate) :
    List (Coordinate × Coordinate) → ℕ → ClosestPointResult → ClosestPointResult
  | [], _, best => best
  | (a, b) :: rest, i, best =>
    let dx := b.1 - a.1
    let dy := b.2 - a.2
    let lenSq := dx * dx + dy * dy
    let t :=
      if lenSq > 0 then
        max 0 (min 1 (((coord.1 - a.1) * dx + (coord.2 - a.2) * dy) / lenSq))
      else 0
    let px := a.1 + t * dx
    let py := a.2 + t * dy
    let d := Real.sqrt ((coord.1 - px) ^ 2 + (coord.2 - py) ^ 2)
    let improves : Bool :=
      match best.distance with
      | none => true
      | some bd => decide (d < bd)
    if improves then
      closestPointAux coord rest (i + 1) ⟨(i : ℝ) + t, (px, py), some d⟩
    else
      closestPointAux coord rest (i + 1) best

/-- `closestPointOnLine(lineCoords, coord)` from `useBreakTool`:
fractional index (integer segment index plus local `t`) and projected
point of the closest position on the line. -/
def closestPointOnLine (lineCoords : List Coordinate) (coord : Coordinate) :
    ClosestPointResult :=
  closestPointAux coord (segments lineCoords) 0
    ⟨0, lineCoords.getD 0 (0, 0), none⟩

/-- Result of `splitCoordsAtFraction`. -/
structure SplitResult where
  before : List Coordinate
  after : List Coordinate
  splitPoint : Coordinate

/-- `splitCoordsAtFraction(coords, frac)` from `useBreakTool`: splits a
coordinate chain at a fractional index, reusing the vertex itself when
the fractional part is below `1e-10`. -/
def splitCoordsAtFraction (coords : List Coordinate) (frac : ℝ) : SplitResult :=
  let segIndex := (⌊frac⌋).toNat
  let t := frac - ⌊frac⌋
  if t < 1e-10 then
    let splitPoint := coords.getD segIndex (0, 0)
    ⟨coords.take (segIndex + 1), coords.drop segIndex, splitPoint⟩
  else
    let a := coords.getD segIndex (0, 0)
    let b := coords.getD (min (segIndex + 1) (coords.length - 1)) (0, 0)
    let splitPoint : Coordinate := (a.1 + t * (b.1 - a.1), a.2 + t * (b.2 - a.2))
    ⟨coords.take (segIndex + 1) ++ [splitPoint],
     splitPoint :: coords.drop (segIndex + 1), splitPoint⟩

/-- The second-click branch of the break tool's `handleClick`: orders
the two fractional indices, cancels (`none`) when they are within
`1e-6`, splits at both, and keeps only chains with at least 2
coordinates (start-to-first and second-to-end; the middle is
discarded). -/
def breakAtFractions (lineCoords : List Coordinate) (fracA fracB : ℝ) :
    Option (List (List Coordinate)) :=
  let frac1 := if fracA > fracB then fracB else fracA
  let frac2 := if fracA > fracB then fracA else fracB
  if |frac2 - frac1| < 1e-6 then none
  else
    let split1 := splitCoordsAtFraction lineCoords frac1
    let split2 := splitCoordsAtFraction lineCoords frac2
    let beforeCoords := split1.before
    let afterCoords := split2.after
    some ((if beforeCoords.length ≥ 2 then [beforeCoords] else []) ++
      (if afterCoords.length ≥ 2 then [afterCoords] else []))

/-- Two break clicks on the same feature: each click is projected with
`closestPointOnLine` and the break is performed at the two fractional
indices. -/
def breakClicks (lineCoords : List Coordinate) (c1 c2 : Coordinate) :
    Option (List (List Coordinate)) :=
  breakAtFractions lineCoords
    (closestPointOnLine lineCoords c1).fractionalIndex
    (closestPointOnLine lineCoords c2).fractionalIndex

/-- Output of `computeAlignedDimensionGeometry`. -/
structure AlignedDimensionGeometry where
  extensionLine1 : Coordinate × Coordinate
  extensionLine2 : Coordinate × Coordinate
  dimensionLine : Coordinate × Coordinate
  textPosition : Coordinate
  textRotation : ℝ

/-- JavaScript's `Math.atan2(y, x)`. -/
def atan2 (y x : ℝ) : ℝ :=
  if 0 < x then Real.arctan (y / x)
  else if x < 0 then
    (if 0 ≤ y then Real.arctan (y / x) + Real.pi else Real.arctan (y / x) - Real.pi)
  else
    (if 0 < y then Real.pi / 2 else if y < 0 then -(Real.pi / 2) else 0)

/-- `computeAlignedDimensionGeometry(p1, p2, offsetDistance, resolution)`
from `alignedDimensionUtils.ts`. -/
def computeAlignedDimensionGeometry (p1 p2 : Coordinate)
    (offsetDistance resolution : ℝ) : AlignedDimensionGeometry :=
  let dx := p2.1 - p1.1
  let dy := p2.2 - p1.2
  let lineLength := Real.sqrt (dx * dx + dy * dy)
  if lineLength < 1e-10 then
    ⟨(p1, p1), (p2, p2), (p1, p2), p1, 0⟩
  else
    let perpX := -dy / lineLength
    let perpY := dx / lineLength
    let sign : ℝ := if 0 ≤ offsetDistance then 1 else -1
    let absOffset := |offsetDistance|
    let dirX := sign * perpX
    let dirY := sign * perpY
    let originGap := 2 * resolution
    let overshoot := 3 * resolution
    let dimP1 : Coordinate := (p1.1 + dirX * absOffset, p1.2 + dirY * absOffset)
    let dimP2 : Coordinate := (p2.1 + dirX * absOffset, p2.2 + dirY * absOffset)
    let ext1Start : Coordinate := (p1.1 + dirX * originGap, p1.2 + dirY * originGap)
    let ext1End : Coordinate := (dimP1.1 + dirX * overshoot, dimP1.2 + dirY * overshoot)
    let ext2Start : Coordinate := (p2.1 + dirX * originGap, p2.2 + dirY * originGap)
    let ext2End : Coordinate := (dimP2.1 + dirX * overshoot, dimP2.2 + dirY * overshoot)
    let textPosition : Coordinate := ((dimP1.1 + dimP2.1) / 2, (dimP1.2 + dimP2.2) / 2)
    ⟨(ext1Start, ext1End), (ext2Start, ext2End), (dimP1, dimP2), textPosition,
      atan2 dy dx⟩

/-- The label-rotation normalization of `getAlignedDimensionStyle`
(`part_005`): `textRotation = -raw`, plus `π` when `raw > π/2`, minus
`π` when `raw < -π/2` (OpenLayers measures text rotation clockwise,
hence the negation of the mathematical angle). -/
def styleTextRotation (raw : ℝ) : ℝ :=
  let r := -raw
  let r := if raw > Real.pi / 2 then r + Real.pi else r
  if raw < -(Real.pi / 2) then r - Real.pi else r

/-- Modelled from the spec: the reference inverse `pointAt(coords, t)`
of §8.1, which walks the polyline to arc-length `t` and returns the
interpolated point there.  (No implementation of `pointAt` exists in
the source; the spec defines it only as "the inverse (walk to
arc-length t)".) -/
def pointAt : List Coordinate → ℝ → Coordinate
  | a :: b :: rest, t =>
    let L := dist a b
    if t ≤ L then (a.1 + (t / L) * (b.1 - a.1), a.2 + (t / L) * (b.2 - a.2))
    else pointAt (b :: rest) (t - L)
  | [a], _ => a
  | [], _ => (0, 0)

/-- Proof-support view of the `parameterizeAlongLine` loop: the list of
`(arc-length parameter, distance)` candidates produced for `point`,
one per segment, starting from accumulated length `acc`. -/
def candList (point : Coordinate) :
    List (Coordinate × Coordinate) → ℝ → List (ℝ × ℝ)
  | [], _ => []
  | (a, b) :: rest, acc =>
    let pr := segProj point a b
    (acc + pr.1, pr.2.1) :: candList point rest (acc + pr.2.2)

end

/-! ## Basic facts about the embedded functions -/

theorem sqrt_eval {x y : ℝ} (hy : 0 ≤ y) (h : y ^ 2 = x) : Real.sqrt x = y := by
  rw [← h]; exact Real.sqrt_sq hy

theorem dist_nonneg' (a b : Coordinate) : 0 ≤ dist a b := Real.sqrt_nonneg _

theorem dist_eq_sqrt_dir (a b : Coordinate) :
    dist a b = Real.sqrt ((b.1 - a.1) * (b.1 - a.1) + (b.2 - a.2) * (b.2 - a.2)) := by
  unfold dist; congr 1; ring

theorem totalArcLength_nonneg (coords : List Coordinate) :
    0 ≤ totalArcLength coords := by
  match coords with
  | [] => simp [totalArcLength]
  | [a] => simp [totalArcLength]
  | a :: b :: rest =>
    have := totalArcLength_nonneg (b :: rest)
    have := dist_nonneg' a b
    unfold totalArcLength
    linarith

theorem scenarioA_intersections :
    findAllIntersections [(0,0),(10,0)] [[(5,-5),(5,5)]] = [⟨(5,0), 5⟩] := by
  norm_num [findAllIntersections, collectIntersections, segments, segmentIntersection,
    List.filterMap_cons, dedupByKey, roundKey, round_eq,
    parameterizeAlongLine, parameterizeAux, segProj,
    sqrt_eval (by norm_num : (0:ℝ) ≤ 10) (by norm_num : (10:ℝ)^2 = 100)]

theorem scenarioA_computeTrim :
    computeTrim [(0,0),(10,0)] (findAllIntersections [(0,0),(10,0)] [[(5,-5),(5,5)]]) 2 =
      some ⟨[[(0,0),(0,0)], [(5,0),(10,0)]], (0, 5)⟩ := by
  rw [scenarioA_intersections]
  norm_num [computeTrim, trimScan, trimInterval, totalArcLength, sliceAtParameter,
    sliceAux, dist,
    sqrt_eval (by norm_num : (0:ℝ) ≤ 10) (by norm_num : (10:ℝ)^2 = 100)]

/-! ## C1 — end-to-end trim scenario A -/

/-- C1 (counterexample): for target `[[0,0],[10,0]]`, crossing line
`[[5,-5],[5,5]]` and click parameter `2`, `computeTrim` does **not**
return exactly one surviving chain `[[5,0],[10,0]]`: the slice at the
interval start `t = 0` produces the two-coordinate degenerate chain
`[[0,0],[0,0]]`, which passes the `length ≥ 2` filter and is kept as an
additional surviving chain. -/
theorem c1_trim_scenarioA_counterexample :
    ¬ ∃ r : TrimResult,
        computeTrim [(0,0),(10,0)]
            (findAllIntersections [(0,0),(10,0)] [[(5,-5),(5,5)]]) 2 = some r ∧
          r.remainingSegments = [[(5,0),(10,0)]] := by
  rintro ⟨r, hr, hseg⟩
  rw [scenarioA_computeTrim] at hr
  obtain rfl : r = ⟨[[(0,0),(0,0)], [(5,0),(10,0)]], (0, 5)⟩ := by
    injection hr with h; exact h.symm
  simp at hseg

/-- C1 (amended): for target line `[[0,0],[10,0]]`, crossing line
`[[5,-5],[5,5]]` (one intersection at parameter 5) and click parameter 2,
`computeTrim` returns `trimmedInterval = (0, 5)` and the surviving chains
`[[0,0],[0,0]]` and `[[5,0],[10,0]]`: only chains with *fewer than 2*
coordinates are dropped as degenerate, so the zero-length before-half at
the interval start, which has exactly 2 (equal) coordinates, is kept
alongside the genuinely surviving chain `[[5,0],[10,0]]`. -/
theorem c1_trim_scenarioA :
    computeTrim [(0,0),(10,0)]
        (findAllIntersections [(0,0),(10,0)] [[(5,-5),(5,5)]]) 2 =
      some ⟨[[(0,0),(0,0)], [(5,0),(10,0)]], (0, 5)⟩ :=
  scenarioA_computeTrim

/-! ## C9 — end-to-end break scenario C -/

/-- C9: breaking the line `[[0,0],[10,0]]` with clicks projecting to
`(3,0)` and `(7,0)` orders the two fractional positions so the smaller
is first and produces exactly the two chains `[[0,0],[3,0]]` and
`[[7,0],[10,0]]` (the middle section is discarded); the same result
holds when the clicks come in the opposite order. -/
theorem c9_break_scenarioC :
    breakClicks [(0,0),(10,0)] (3,0) (7,0) =
        some [[(0,0),(3,0)], [(7,0),(10,0)]] ∧
      breakClicks [(0,0),(10,0)] (7,0) (3,0) =
        some [[(0,0),(3,0)], [(7,0),(10,0)]] := by
  constructor <;>
    norm_num [breakClicks, breakAtFractions, splitCoordsAtFraction,
      closestPointOnLine, closestPointAux, segments, Real.sqrt_zero, abs_lt]

/-! ## C2 — slicing exactly at a vertex -/

theorem totalArcLength_cons (a b : Coordinate) (rest : List Coordinate) :
    totalArcLength (a :: b :: rest) = dist a b + totalArcLength (b :: rest) := rfl

theorem dist_getLast_le (l : List Coordinate) (h : l ≠ []) (v : Coordinate) :
    dist (l.getLast h) v ≤ totalArcLength (l ++ [v]) := by
  induction l with
  | nil => exact absurd rfl h
  | cons a l ih =>
    cases l with
    | nil => simp [totalArcLength]
    | cons b l' =>
      have hne : b :: l' ≠ [] := List.cons_ne_nil _ _
      have hlast : (a :: b :: l').getLast h = (b :: l').getLast hne :=
        List.getLast_cons hne
      rw [hlast]
      simp only [List.cons_append]
      rw [totalArcLength_cons]
      have h1 := ih hne
      simp only [List.cons_append] at h1
      have h2 := dist_nonneg' a b
      linarith

theorem sliceAux_at_vertex (v : Coordinate) (suf : List Coordinate) :
    ∀ (ys : List Coordinate) (hys : ys ≠ []) (acc : List Coordinate)
      (accumulated t : ℝ),
      dist (ys.getLast hys) v > 1e-10 →
      t = accumulated + totalArcLength (ys ++ [v]) →
      sliceAux t acc (ys ++ v :: suf) accumulated =
        ⟨acc ++ ys ++ [v], v :: v :: suf⟩
  | [], hys, _, _, _, _, _ => absurd rfl hys
  | [y], _, acc, accumulated, t, hd, ht => by
    have hdist : dist y v > 1e-10 := by simpa using hd
    have hpos : (0:ℝ) < dist y v := lt_trans (by norm_num) hdist
    have ht' : t = accumulated + dist y v := by
      simpa [totalArcLength] using ht
    show sliceAux t acc (y :: v :: suf) accumulated = _
    unfold sliceAux
    rw [if_pos (by rw [ht']; norm_num)]
    have hmax : max (dist y v) 1e-10 = dist y v := max_eq_left (le_of_lt hdist)
    have hlocal : (t - accumulated) / max (dist y v) 1e-10 = 1 := by
      rw [hmax, ht']; field_simp
    simp only [hlocal]
    have hclamp : max (0:ℝ) (min 1 1) = 1 := by norm_num
    simp only [hclamp, one_mul]
    have h1 : y.1 + (v.1 - y.1) = v.1 := by ring
    have h2 : y.2 + (v.2 - y.2) = v.2 := by ring
    simp only [h1, h2]
  | y :: b :: ys', _, acc, accumulated, t, hd, ht => by
    have hne : b :: ys' ≠ [] := List.cons_ne_nil _ _
    have hd' : dist ((b :: ys').getLast hne) v > 1e-10 := by
      rwa [show (y :: b :: ys').getLast (List.cons_ne_nil _ _) =
        (b :: ys').getLast hne from List.getLast_cons hne] at hd
    have hrest : totalArcLength ((b :: ys') ++ [v]) > 1e-10 :=
      lt_of_lt_of_le hd' (dist_getLast_le _ hne v)
    have ht' : t = accumulated + dist y b + totalArcLength ((b :: ys') ++ [v]) := by
      rw [ht]
      simp only [List.cons_append]
      rw [totalArcLength_cons]
      ring
    show sliceAux t acc (y :: b :: (ys' ++ v :: suf)) accumulated = _
    unfold sliceAux
    rw [if_neg (by rw [ht']; push_neg; linarith)]
    have := sliceAux_at_vertex v suf (b :: ys') hne (acc ++ [y])
      (accumulated + dist y b) t hd' (by rw [ht'])
    rw [show (b :: ys') ++ v :: suf = b :: (ys' ++ v :: suf) from rfl] at this
    rw [this]
    simp

/-- C2 (counterexample): on the polyline `[[0,0],[1,0],[2,0]]` with `t = 1`
— exactly the arc length of the middle vertex `(1,0)` — the after chain
of `sliceAtParameter` is `[[1,0],[1,0],[2,0]]`: the shared vertex appears
*twice* in a row, so the chain does contain duplicate consecutive points,
contrary to the claimed edge policy. -/
theorem c2_slice_vertex_counterexample :
    (sliceAtParameter [(0,0),(1,0),(2,0)] 1).after = [(1,0),(1,0),(2,0)] ∧
      ¬ List.Chain' (fun p q : Coordinate => p ≠ q)
        ((sliceAtParameter [(0,0),(1,0),(2,0)] 1).after) := by
  have hs : sliceAtParameter [(0,0),(1,0),(2,0)] 1 =
      ⟨[(0,0),(1,0)], [(1,0),(1,0),(2,0)]⟩ := by
    norm_num [sliceAtParameter, sliceAux, dist,
      sqrt_eval (by norm_num : (0:ℝ) ≤ 1) (by norm_num : (1:ℝ)^2 = 1)]
  rw [hs]
  refine ⟨rfl, fun hchain => ?_⟩
  simp [List.chain'_cons] at hchain

/-- C2 (amended): if the arc-length parameter `t` falls exactly on an
existing vertex `v` whose incoming segment is longer than the `1e-10`
walking tolerance, then `sliceAtParameter` returns a before chain ending
at that vertex (appearing once) and an after chain *starting with the
vertex duplicated* (the interpolated cut point equals the vertex and is
prepended to the suffix that still begins with the vertex): the vertex is
the shared endpoint of both chains, but the after chain contains a
duplicate consecutive point rather than being deduplicated. -/
theorem c2_slice_at_vertex (y : Coordinate) (ys' : List Coordinate)
    (v : Coordinate) (suf : List Coordinate)
    (hd : dist ((y :: ys').getLast (List.cons_ne_nil y ys')) v > 1e-10) :
    sliceAtParameter ((y :: ys') ++ v :: suf)
        (totalArcLength ((y :: ys') ++ [v])) =
      ⟨(y :: ys') ++ [v], v :: v :: suf⟩ := by
  unfold sliceAtParameter
  have := sliceAux_at_vertex v suf (y :: ys') (List.cons_ne_nil y ys') []
    0 (totalArcLength ((y :: ys') ++ [v])) hd (by ring)
  simpa using this

/-- C2 (witness): the amended theorem applied to the concrete polyline
`[[0,0],[1,0],[2,0]]` cut at its middle vertex. -/
theorem c2_slice_at_vertex_witness :
    dist (([(0,0)] : List Coordinate).getLast (List.cons_ne_nil _ _)) (1,0) > 1e-10 ∧
      sliceAtParameter (([(0,0)] : List Coordinate) ++ (1,0) :: [(2,0)])
          (totalArcLength (([(0,0)] : List Coordinate) ++ [(1,0)])) =
        ⟨([(0,0)] : List Coordinate) ++ [(1,0)], (1,0) :: (1,0) :: [(2,0)]⟩ := by
  have hd : dist (([(0,0)] : List Coordinate).getLast (List.cons_ne_nil _ _)) (1,0) >
      1e-10 := by
    norm_num [dist, sqrt_eval (by norm_num : (0:ℝ) ≤ 1) (by norm_num : (1:ℝ)^2 = 1)]
  exact ⟨hd, c2_slice_at_vertex (0,0) [] (1,0) [(2,0)] hd⟩

/-! ## C3 — dimension text readability -/

theorem atan2_mem_Ioc (y x : ℝ) : atan2 y x ∈ Set.Ioc (-Real.pi) Real.pi := by
  have hpi := Real.pi_pos
  unfold atan2
  split_ifs with hx hx' hy hy' hy''
  · have h1 := Real.arctan_lt_pi_div_two (y / x)
    have h2 := Real.neg_pi_div_two_lt_arctan (y / x)
    exact ⟨by linarith, by linarith⟩
  · have h1 := Real.neg_pi_div_two_lt_arctan (y / x)
    have hle : y / x ≤ 0 := div_nonpos_of_nonneg_of_nonpos hy (le_of_lt hx')
    have h2 : Real.arctan (y / x) ≤ 0 := by
      have := Real.arctan_strictMono.monotone hle
      simpa [Real.arctan_zero] using this
    exact ⟨by linarith, by linarith⟩
  · have h1 := Real.arctan_lt_pi_div_two (y / x)
    have hpos : 0 < y / x := div_pos_of_neg_of_neg (by simpa using hy) hx'
    have h2 : 0 < Real.arctan (y / x) := by
      have := Real.arctan_strictMono hpos
      simpa [Real.arctan_zero] using this
    exact ⟨by linarith, by linarith⟩
  · exact ⟨by linarith, by linarith⟩
  · exact ⟨by linarith, by linarith⟩
  · exact ⟨by linarith, by linarith⟩

theorem textRotation_eq (p1 p2 : Coordinate) (o r : ℝ) :
    (computeAlignedDimensionGeometry p1 p2 o r).textRotation = 0 ∨
      (computeAlignedDimensionGeometry p1 p2 o r).textRotation =
        atan2 (p2.2 - p1.2) (p2.1 - p1.1) := by
  simp only [computeAlignedDimensionGeometry,
    apply_ite AlignedDimensionGeometry.textRotation]
  split_ifs with h
  · left; rfl
  · right; rfl

theorem styleTextRotation_spec (raw : ℝ)
    (hmem : raw ∈ Set.Ioc (-Real.pi) Real.pi) :
    styleTextRotation raw ∈ Set.Icc (-(Real.pi / 2)) (Real.pi / 2) ∧
      (Real.pi / 2 < |raw| → |(-styleTextRotation raw) - raw| = Real.pi) := by
  have hpi := Real.pi_pos
  obtain ⟨hlo, hhi⟩ := hmem
  simp only [styleTextRotation]
  by_cases hgt : raw > Real.pi / 2
  · have hnlt : ¬ raw < -(Real.pi / 2) := by linarith
    rw [if_neg hnlt, if_pos hgt]
    refine ⟨⟨by linarith, by linarith⟩, fun _ => ?_⟩
    have h : (-(-raw + Real.pi)) - raw = -Real.pi := by ring
    rw [h, abs_neg, abs_of_pos hpi]
  · by_cases hlt : raw < -(Real.pi / 2)
    · rw [if_pos hlt, if_neg hgt]
      refine ⟨⟨by linarith, by linarith⟩, fun _ => ?_⟩
      have h : (-(-raw - Real.pi)) - raw = Real.pi := by ring
      rw [h, abs_of_pos hpi]
    · rw [if_neg hlt, if_neg hgt]
      push_neg at hgt hlt
      refine ⟨⟨by linarith, by linarith⟩, fun habs => ?_⟩
      have : |raw| ≤ Real.pi / 2 := abs_le.mpr ⟨by linarith, by linarith⟩
      linarith

theorem dimGeom_flipped_textRotation :
    (computeAlignedDimensionGeometry (0,0) (-1,0) 1 1).textRotation = Real.pi := by
  norm_num [computeAlignedDimensionGeometry,
    apply_ite AlignedDimensionGeometry.textRotation, atan2, Real.arctan_zero,
    sqrt_eval (by norm_num : (0:ℝ) ≤ 1) (by norm_num : (1:ℝ)^2 = 1)]

/-- C3 (counterexample): the aligned-dimension geometry *generator*
(`computeAlignedDimensionGeometry`) does not normalize the text
rotation: for the measured points `(0,0)` and `(-1,0)` the raw segment
angle `atan2(0, -1) = π` exceeds `90°` in magnitude and is returned
unchanged as `textRotation`, outside `[-π/2, π/2]`. -/
theorem c3_text_rotation_counterexample :
    (computeAlignedDimensionGeometry (0,0) (-1,0) 1 1).textRotation = Real.pi ∧
      ¬ |(computeAlignedDimensionGeometry (0,0) (-1,0) 1 1).textRotation| ≤
          Real.pi / 2 := by
  have hpi := Real.pi_pos
  refine ⟨dimGeom_flipped_textRotation, fun hle => ?_⟩
  rw [dimGeom_flipped_textRotation, abs_of_pos hpi] at hle
  linarith

/-- C3 (amended): `computeAlignedDimensionGeometry` returns the raw
segment angle `atan2(dy, dx)` as `textRotation`; the readability
normalization is applied afterwards by `getAlignedDimensionStyle`,
which negates the angle (OpenLayers text rotation is clockwise) and
adds/subtracts `π` when the raw angle exceeds `90°` in magnitude.  The
resulting style rotation always lies within `[-π/2, π/2]`, and whenever
the raw angle exceeds `90°` in magnitude the corresponding world-frame
text angle (the negation of the style rotation) differs from the raw
angle by exactly `π` — so the rendered label is never upside-down. -/
theorem c3_style_text_rotation (p1 p2 : Coordinate) (off res : ℝ) :
    styleTextRotation ((computeAlignedDimensionGeometry p1 p2 off res).textRotation) ∈
        Set.Icc (-(Real.pi / 2)) (Real.pi / 2) ∧
      (Real.pi / 2 < |(computeAlignedDimensionGeometry p1 p2 off res).textRotation| →
        |(-styleTextRotation
            ((computeAlignedDimensionGeometry p1 p2 off res).textRotation)) -
          (computeAlignedDimensionGeometry p1 p2 off res).textRotation| = Real.pi) := by
  have hpi := Real.pi_pos
  rcases textRotation_eq p1 p2 off res with h | h <;> rw [h]
  · exact styleTextRotation_spec 0 ⟨by linarith, by linarith⟩
  · exact styleTextRotation_spec _ (atan2_mem_Ioc _ _)

/-- C3 (witness): the amended theorem applied to the measured points
`(0,0)` and `(-1,0)`, whose raw angle is `π`. -/
theorem c3_style_text_rotation_witness :
    Real.pi / 2 < |(computeAlignedDimensionGeometry (0,0) (-1,0) 1 1).textRotation| ∧
      |(-styleTextRotation
          ((computeAlignedDimensionGeometry (0,0) (-1,0) 1 1).textRotation)) -
        (computeAlignedDimensionGeometry (0,0) (-1,0) 1 1).textRotation| = Real.pi := by
  have hpi := Real.pi_pos
  have habs : Real.pi / 2 <
      |(computeAlignedDimensionGeometry (0,0) (-1,0) 1 1).textRotation| := by
    rw [dimGeom_flipped_textRotation, abs_of_pos hpi]; linarith
  exact ⟨habs, (c3_style_text_rotation (0,0) (-1,0) 1 1).2 habs⟩

/-! ## C5 — click exactly on an intersection parameter -/

theorem trimScan_stable (click : ℝ) (l r : Option (ℕ × ℝ)) (hr : r ≠ none) :
    ∀ (rest : List TrimIntersection) (i : ℕ),
      (∀ y ∈ rest, click < y.parameter) → trimScan click rest i l r = (l, r) := by
  intro rest
  induction rest with
  | nil => intro i _; rfl
  | cons x rest ih =>
    intro i h
    have hx : click < x.parameter := h x (List.mem_cons_self x rest)
    show trimScan click rest (i + 1) _ _ = (l, r)
    rw [if_neg (not_le.mpr hx), if_neg (fun hc => hr hc.1)]
    exact ih (i + 1) fun y hy => h y (List.mem_cons_of_mem x hy)

theorem trimScan_hit (click : ℝ) (x : TrimIntersection)
    (post : List TrimIntersection) (hx : x.parameter = click)
    (hpost : ∀ y ∈ post, click < y.parameter) :
    ∀ (pre : List TrimIntersection) (i : ℕ) (l0 : Option (ℕ × ℝ)),
      (∀ y ∈ pre, y.parameter < click) →
      trimScan click (pre ++ x :: post) i l0 none =
        (some (i + pre.length, click), some (i + pre.length, click)) := by
  intro pre
  induction pre with
  | nil =>
    intro i l0 _
    show trimScan click (x :: post) i l0 none = _
    show trimScan click post (i + 1) _ _ = _
    rw [if_pos (le_of_eq hx), if_pos ⟨rfl, ge_of_eq hx⟩, hx]
    rw [trimScan_stable click _ _ (by simp) post (i + 1) hpost]
    simp
  | cons a pre ih =>
    intro i l0 h
    have ha : a.parameter < click := h a (List.mem_cons_self a pre)
    show trimScan click (pre ++ x :: post) (i + 1) _ _ = _
    rw [if_pos (le_of_lt ha), if_neg (fun hc => absurd hc.2 (not_le.mpr ha))]
    rw [ih (i + 1) _ fun y hy => h y (List.mem_cons_of_mem a hy)]
    have : i + 1 + pre.length = i + (a :: pre).length := by
      simp [List.length_cons]; omega
    rw [this]

/-- C5: if `clickParameter` equals the parameter of the `j`-th
intersection of a strictly-ascending intersection list, `computeTrim`'s
left scan (last parameter ≤ click) and right scan (first parameter ≥
click) both select index `j`, and the operation collapses to case 2:
the removed interval is `[that parameter, totalLength]`, even when
further intersections exist beyond the click. -/
theorem c5_trim_click_on_intersection (targetCoords : List Coordinate)
    (ints : List TrimIntersection) (j : ℕ) (hj : j < ints.length)
    (hsorted : ints.Pairwise (fun a b => a.parameter < b.parameter)) :
    trimScan ((ints.get ⟨j, hj⟩).parameter) ints 0 none none =
        (some (j, (ints.get ⟨j, hj⟩).parameter),
         some (j, (ints.get ⟨j, hj⟩).parameter)) ∧
      (computeTrim targetCoords ints ((ints.get ⟨j, hj⟩).parameter)).map
          (fun r => r.trimmedInterval) =
        some ((ints.get ⟨j, hj⟩).parameter, totalArcLength targetCoords) := by
  set click := (ints.get ⟨j, hj⟩).parameter with hclick
  have hdecomp : ints = ints.take j ++ ints.get ⟨j, hj⟩ :: ints.drop (j + 1) := by
    conv_lhs => rw [← List.take_append_drop j ints]
    rw [List.get_cons_drop]
  have hsorted2 : (ints.take j ++ ints.get ⟨j, hj⟩ :: ints.drop (j + 1)).Pairwise
      (fun a b => a.parameter < b.parameter) := by rw [← hdecomp]; exact hsorted
  rw [List.pairwise_append] at hsorted2
  have hpre : ∀ y ∈ ints.take j, y.parameter < click :=
    fun y hy => hsorted2.2.2 y hy _ (List.mem_cons_self _ _)
  have hpost : ∀ y ∈ ints.drop (j + 1), click < y.parameter := by
    have := hsorted2.2.1
    rw [List.pairwise_cons] at this
    exact fun y hy => this.1 y hy
  have hlen : (ints.take j).length = j := by
    rw [List.length_take]; omega
  have hscan : trimScan click ints 0 none none =
      (some (j, click), some (j, click)) := by
    conv_lhs => rw [hdecomp]
    rw [trimScan_hit click _ _ rfl hpost (ints.take j) 0 none hpre]
    rw [hlen]
    simp
  refine ⟨hscan, ?_⟩
  have hne : ¬ ints.length = 0 := by omega
  simp [computeTrim, if_neg hne, hscan, trimInterval]

/-- C5 (witness): the theorem applied to target `[[0,0],[10,0]]` and the
strictly ascending intersections at parameters `5` and `7`, clicking at
the first one. -/
theorem c5_trim_click_on_intersection_witness :
    (0 < ([⟨(5,0),5⟩, ⟨(7,0),7⟩] : List TrimIntersection).length) ∧
      ([(⟨(5,0),5⟩ : TrimIntersection), ⟨(7,0),7⟩].Pairwise
        (fun a b => a.parameter < b.parameter)) ∧
      (computeTrim [(0,0),(10,0)] [⟨(5,0),5⟩, ⟨(7,0),7⟩]
          ((([(⟨(5,0),5⟩ : TrimIntersection), ⟨(7,0),7⟩]).get
            ⟨0, by norm_num⟩).parameter)).map (fun r => r.trimmedInterval) =
        some (((([(⟨(5,0),5⟩ : TrimIntersection), ⟨(7,0),7⟩]).get
            ⟨0, by norm_num⟩).parameter), totalArcLength [(0,0),(10,0)]) := by
  have hs : ([(⟨(5,0),5⟩ : TrimIntersection), ⟨(7,0),7⟩].Pairwise
      (fun a b => a.parameter < b.parameter)) := by
    simp [List.pairwise_cons]
    norm_num
  exact ⟨by norm_num, hs,
    (c5_trim_click_on_intersection [(0,0),(10,0)] _ 0 (by norm_num) hs).2⟩

/-! ## C10 — computeTrim totality and interval bounds -/

theorem trimScan_bounds (click : ℝ) (Q : ℝ → Prop) :
    ∀ (rest : List TrimIntersection) (i : ℕ) (l r : Option (ℕ × ℝ)),
      (∀ a b, l = some (a, b) → b ≤ click ∧ Q b) →
      (∀ a b, r = some (a, b) → click ≤ b ∧ Q b) →
      (∀ y ∈ rest, Q y.parameter) →
      (∀ a b, (trimScan click rest i l r).1 = some (a, b) → b ≤ click ∧ Q b) ∧
        (∀ a b, (trimScan click rest i l r).2 = some (a, b) → click ≤ b ∧ Q b) := by
  intro rest
  induction rest with
  | nil => intro i l r hl hr _; exact ⟨hl, hr⟩
  | cons x rest ih =>
    intro i l r hl hr hmem
    have hxQ : Q x.parameter := hmem x (List.mem_cons_self x rest)
    have hmem' : ∀ y ∈ rest, Q y.parameter :=
      fun y hy => hmem y (List.mem_cons_of_mem x hy)
    show (∀ a b, (trimScan click rest (i + 1) _ _).1 = some (a, b) → _) ∧ _
    refine ih (i + 1) _ _ ?_ ?_ hmem'
    · by_cases hxc : x.parameter ≤ click
      · rw [if_pos hxc]
        rintro a b hab
        injection hab with hab
        obtain ⟨rfl, rfl⟩ := Prod.mk.injEq .. ▸ (Prod.mk.inj hab)
        exact ⟨hxc, hxQ⟩
      · rw [if_neg hxc]; exact hl
    · by_cases hrc : r = none ∧ x.parameter ≥ click
      · rw [if_pos hrc]
        rintro a b hab
        injection hab with hab
        obtain ⟨rfl, rfl⟩ := Prod.mk.injEq .. ▸ (Prod.mk.inj hab)
        exact ⟨hrc.2, hxQ⟩
      · rw [if_neg hrc]; exact hr

theorem trimScan_progress (click : ℝ) :
    ∀ (rest : List TrimIntersection) (i : ℕ) (l r : Option (ℕ × ℝ)),
      (l ≠ none ∨ r ≠ none) →
      ((trimScan click rest i l r).1 ≠ none ∨ (trimScan click rest i l r).2 ≠ none) := by
  intro rest
  induction rest with
  | nil => intro i l r h; exact h
  | cons x rest ih =>
    intro i l r h
    show (trimScan click rest (i + 1) _ _).1 ≠ none ∨ _
    refine ih (i + 1) _ _ ?_
    rcases h with hl | hr
    · left
      by_cases hxc : x.parameter ≤ click
      · rw [if_pos hxc]; simp
      · rw [if_neg hxc]; exact hl
    · right
      by_cases hrc : r = none ∧ x.parameter ≥ click
      · rw [if_pos hrc]; simp
      · rw [if_neg hrc]; exact hr

theorem trimScan_cons_not_both_none (click : ℝ) (x : TrimIntersection)
    (rest : List TrimIntersection) (i : ℕ) :
    (trimScan click (x :: rest) i none none).1 ≠ none ∨
      (trimScan click (x :: rest) i none none).2 ≠ none := by
  show (trimScan click rest (i + 1) _ _).1 ≠ none ∨ _
  refine trimScan_progress click rest (i + 1) _ _ ?_
  by_cases hxc : x.parameter ≤ click
  · left; rw [if_pos hxc]; simp
  · right
    rw [if_pos ⟨rfl, le_of_lt (not_le.mp hxc)⟩]
    simp

/-- C10 (implicit): `computeTrim` returns `null` exactly when the
intersection list is empty; for every target polyline, every non-empty
intersection list sorted ascending with all parameters in
`[0, totalLength]`, and every `clickParameter`, it returns a result
whose `trimmedInterval` satisfies `0 ≤ start ≤ end ≤ totalLength`. -/
theorem c10_computeTrim_total (targetCoords : List Coordinate)
    (ints : List TrimIntersection) (click : ℝ) (hne : ints ≠ [])
    (hsorted : ints.Pairwise (fun a b => a.parameter ≤ b.parameter))
    (hbounds : ∀ y ∈ ints,
      0 ≤ y.parameter ∧ y.parameter ≤ totalArcLength targetCoords) :
    (∀ (tc : List Coordinate) (c : ℝ), computeTrim tc [] c = none) ∧
      ∃ r, computeTrim targetCoords ints click = some r ∧
        0 ≤ r.trimmedInterval.1 ∧
          r.trimmedInterval.1 ≤ r.trimmedInterval.2 ∧
            r.trimmedInterval.2 ≤ totalArcLength targetCoords := by
  refine ⟨fun tc c => rfl, ?_⟩
  have hlen : ¬ ints.length = 0 := by
    cases ints with
    | nil => exact absurd rfl hne
    | cons x rest => simp
  have hspec := trimScan_bounds click
    (fun p => 0 ≤ p ∧ p ≤ totalArcLength targetCoords) ints 0 none none
    (by rintro a b h; cases h) (by rintro a b h; cases h) hbounds
  have hnn : (trimScan click ints 0 none none).1 ≠ none ∨
      (trimScan click ints 0 none none).2 ≠ none := by
    cases ints with
    | nil => exact absurd rfl hne
    | cons x rest => exact trimScan_cons_not_both_none click x rest 0
  simp only [computeTrim, if_neg hlen]
  rcases h1 : (trimScan click ints 0 none none).1 with _ | ⟨li, lp⟩ <;>
    rcases h2 : (trimScan click ints 0 none none).2 with _ | ⟨ri, rp⟩ <;>
    simp only [trimInterval]
  · rw [h1, h2] at hnn
    rcases hnn with h | h <;> exact absurd rfl h
  · obtain ⟨hcr, hr0, hrT⟩ : click ≤ rp ∧ 0 ≤ rp ∧ rp ≤ totalArcLength targetCoords := by
      have := hspec.2 ri rp h2
      exact ⟨this.1, this.2.1, this.2.2⟩
    exact ⟨_, rfl, le_refl 0, hr0, hrT⟩
  · obtain ⟨hcl, hl0, hlT⟩ : lp ≤ click ∧ 0 ≤ lp ∧ lp ≤ totalArcLength targetCoords := by
      have := hspec.1 li lp h1
      exact ⟨this.1, this.2.1, this.2.2⟩
    exact ⟨_, rfl, hl0, hlT, le_refl _⟩
  · obtain ⟨hcl, hl0, hlT⟩ : lp ≤ click ∧ 0 ≤ lp ∧ lp ≤ totalArcLength targetCoords := by
      have := hspec.1 li lp h1
      exact ⟨this.1, this.2.1, this.2.2⟩
    obtain ⟨hcr, hr0, hrT⟩ : click ≤ rp ∧ 0 ≤ rp ∧ rp ≤ totalArcLength targetCoords := by
      have := hspec.2 ri rp h2
      exact ⟨this.1, this.2.1, this.2.2⟩
    by_cases hij : ri = li
    · exact ⟨_, rfl, by simp only [if_pos hij]; exact hl0,
        by simp only [if_pos hij]; exact hlT, by simp only [if_pos hij]; exact le_refl _⟩
    · exact ⟨_, rfl, by simp only [if_neg hij]; exact hl0,
        by simp only [if_neg hij]; exact le_trans hcl hcr,
        by simp only [if_neg hij]; exact hrT⟩

/-- C10 (witness): the theorem applied to target `[[0,0],[10,0]]`, the
single intersection at parameter `5`, and click parameter `2`. -/
theorem c10_computeTrim_total_witness :
    (([⟨(5,0),5⟩] : List TrimIntersection) ≠ []) ∧
      (([⟨(5,0),5⟩] : List TrimIntersection).Pairwise
        (fun a b => a.parameter ≤ b.parameter)) ∧
      (∀ y ∈ ([⟨(5,0),5⟩] : List TrimIntersection),
        0 ≤ y.parameter ∧ y.parameter ≤ totalArcLength [(0,0),(10,0)]) ∧
      ((∀ (tc : List Coordinate) (c : ℝ), computeTrim tc [] c = none) ∧
        ∃ r, computeTrim [(0,0),(10,0)] [⟨(5,0),5⟩] 2 = some r ∧
          0 ≤ r.trimmedInterval.1 ∧
            r.trimmedInterval.1 ≤ r.trimmedInterval.2 ∧
              r.trimmedInterval.2 ≤ totalArcLength [(0,0),(10,0)]) := by
  have htot : totalArcLength [(0,0),(10,0)] = 10 := by
    norm_num [totalArcLength, dist,
      sqrt_eval (by norm_num : (0:ℝ) ≤ 10) (by norm_num : (10:ℝ)^2 = 100)]
  have h1 : (([⟨(5,0),5⟩] : List TrimIntersection) ≠ []) := by simp
  have h2 : (([⟨(5,0),5⟩] : List TrimIntersection).Pairwise
      (fun a b => a.parameter ≤ b.parameter)) := by simp
  have h3 : (∀ y ∈ ([⟨(5,0),5⟩] : List TrimIntersection),
      0 ≤ y.parameter ∧ y.parameter ≤ totalArcLength [(0,0),(10,0)]) := by
    intro y hy
    rw [htot]
    rcases List.mem_singleton.mp hy with rfl
    norm_num
  exact ⟨h1, h2, h3, c10_computeTrim_total [(0,0),(10,0)] _ 2 h1 h2 h3⟩

/-! ## C4 — discovery output sorted and key-deduplicated -/

theorem dedupByKey_nodup :
    ∀ (pts : List Coordinate) (seen : List (ℤ × ℤ)),
      ((dedupByKey pts seen).map roundKey).Nodup ∧
        ∀ k ∈ (dedupByKey pts seen).map roundKey, k ∉ seen := by
  intro pts
  induction pts with
  | nil => intro seen; simp [dedupByKey]
  | cons pt rest ih =>
    intro seen
    by_cases h : roundKey pt ∈ seen
    · simpa [dedupByKey, h] using ih seen
    · obtain ⟨ihnd, ihnotin⟩ := ih (roundKey pt :: seen)
      simp only [dedupByKey, if_neg h, List.map_cons]
      constructor
      · refine List.nodup_cons.mpr ⟨?_, ihnd⟩
        intro hmem
        exact (ihnotin _ hmem) (List.mem_cons_self _ _)
      · intro k hk
        rcases List.mem_cons.mp hk with rfl | hk'
        · exact h
        · intro hkseen
          exact (ihnotin k hk') (List.mem_cons_of_mem _ hkseen)

/-- C4: the list returned by `findAllIntersections` is sorted ascending
by the `parameter` field, and no two entries have coordinates that agree
after rounding both components to 4 decimal places (the dedup key). -/
theorem c4_intersections_sorted_nodup (targetCoords : List Coordinate)
    (chains : List (List Coordinate)) :
    (findAllIntersections targetCoords chains).Pairwise
        (fun a b => a.parameter ≤ b.parameter) ∧
      ((findAllIntersections targetCoords chains).map
        (fun i => roundKey i.coordinate)).Nodup := by
  simp only [findAllIntersections]
  constructor
  · have h : (((dedupByKey (collectIntersections targetCoords chains) []).map fun pt =>
          TrimIntersection.mk pt (parameterizeAlongLine targetCoords pt)).mergeSort
            (fun x y => decide (x.parameter ≤ y.parameter))).Pairwise
        (fun a b => decide (a.parameter ≤ b.parameter) = true) :=
      List.sorted_mergeSort
        (fun a b c hab hbc => by
          simp only [decide_eq_true_eq] at *
          exact le_trans hab hbc)
        (fun a b => by
          simp only [Bool.or_eq_true, decide_eq_true_eq]
          exact le_total _ _)
        _
    refine List.Pairwise.imp ?_ h
    intro a b hab
    exact of_decide_eq_true hab
  · have hperm :
        (((dedupByKey (collectIntersections targetCoords chains) []).map fun pt =>
            TrimIntersection.mk pt (parameterizeAlongLine targetCoords pt)).mergeSort
          fun x y => decide (x.parameter ≤ y.parameter)).Perm
        ((dedupByKey (collectIntersections targetCoords chains) []).map fun pt =>
          TrimIntersection.mk pt (parameterizeAlongLine targetCoords pt)) :=
      List.mergeSort_perm _ _
    rw [List.Perm.nodup_iff (hperm.map (fun i : TrimIntersection => roundKey i.coordinate))]
    rw [List.map_map]
    exact (dedupByKey_nodup _ []).1

/-! ## C6 — computeExtend nearest forward hit -/

theorem raySegmentIntersection_spec (o dir c d pt : Coordinate) (t : ℝ)
    (h : raySegmentIntersection o dir c d = some (pt, t)) :
    1e-6 < t ∧ pt = (o.1 + t * dir.1, o.2 + t * dir.2) := by
  simp only [raySegmentIntersection] at h
  split_ifs at h with h1 h2
  rw [Option.some.injEq, Prod.mk.injEq] at h
  obtain ⟨hpt, hts⟩ := h
  constructor
  · rw [← hts]; exact h2.1
  · rw [← hpt, ← hts]

theorem extendHits_t_pos (coords : List Coordinate) (ep : Endpoint)
    (chains : List (List Coordinate)) :
    ∀ h ∈ extendHits coords ep chains, 1e-6 < h.2 := by
  rintro ⟨pt, t⟩ hmem
  simp only [extendHits, List.mem_flatMap, List.mem_filterMap] at hmem
  obtain ⟨chain, _, so, _, hray⟩ := hmem
  exact (raySegmentIntersection_spec _ _ _ _ _ _ hray).1

theorem selectNearest_fold :
    ∀ (hits : List (Coordinate × ℝ)) (a : Coordinate × ℝ),
      ∃ h, (h = a ∨ h ∈ hits) ∧ h.2 ≤ a.2 ∧ (∀ g ∈ hits, h.2 ≤ g.2) ∧
        hits.foldl
          (fun acc h =>
            match acc with
            | none => some h
            | some a => if h.2 < a.2 then some h else some a)
          (some a) = some h := by
  intro hits
  induction hits with
  | nil => intro a; exact ⟨a, Or.inl rfl, le_refl _, by simp, rfl⟩
  | cons x hits ih =>
    intro a
    show ∃ h, _ ∧ _ ∧ _ ∧ List.foldl _ (if x.2 < a.2 then some x else some a) hits = _
    by_cases hx : x.2 < a.2
    · rw [if_pos hx]
      obtain ⟨h, hmem, hle, hmin, heq⟩ := ih x
      refine ⟨h, Or.inr ?_, le_trans hle (le_of_lt hx), ?_, heq⟩
      · rcases hmem with rfl | hm
        · exact List.mem_cons_self _ _
        · exact List.mem_cons_of_mem _ hm
      · intro g hg
        rcases List.mem_cons.mp hg with rfl | hg'
        · exact hle
        · exact hmin g hg'
    · rw [if_neg hx]
      obtain ⟨h, hmem, hle, hmin, heq⟩ := ih a
      refine ⟨h, ?_, hle, ?_, heq⟩
      · rcases hmem with rfl | hm
        · exact Or.inl rfl
        · exact Or.inr (List.mem_cons_of_mem _ hm)
      · intro g hg
        rcases List.mem_cons.mp hg with rfl | hg'
        · exact le_trans hle (not_lt.mp hx)
        · exact hmin g hg'

theorem selectNearest_spec (hits : List (Coordinate × ℝ)) (hne : hits ≠ []) :
    ∃ h, h ∈ hits ∧ (∀ g ∈ hits, h.2 ≤ g.2) ∧ selectNearest hits = some h := by
  cases hits with
  | nil => exact absurd rfl hne
  | cons x rest =>
    obtain ⟨h, hmem, hle, hmin, heq⟩ := selectNearest_fold rest x
    refine ⟨h, ?_, ?_, heq⟩
    · rcases hmem with rfl | hm
      · exact List.mem_cons_self _ _
      · exact List.mem_cons_of_mem _ hm
    · intro g hg
      rcases List.mem_cons.mp hg with rfl | hg'
      · exact hle
      · exact hmin g hg'

/-- C6: for every target line with at least 2 coordinates and every
candidate chain set, if some edge yields a forward ray hit (ray
parameter `t > 1e-6` along the outward direction) then `computeExtend`
returns a hit of minimal ray parameter and a chain equal to the
original with only the chosen endpoint replaced by the intersection
point (all other entries unchanged); with no forward hit it returns
`none`.  In particular, extending `[[0,0],[5,0]]` from `end` against
the obstacle `[[8,-5],[8,5]]` gives the new endpoint `(8,0)` and the
chain `[[0,0],[8,0]]`. -/
theorem c6_computeExtend_nearest (coords : List Coordinate) (ep : Endpoint)
    (chains : List (List Coordinate)) (hlen : 2 ≤ coords.length) :
    ((extendHits coords ep chains = [] → computeExtend coords ep chains = none) ∧
      (extendHits coords ep chains ≠ [] →
        ∃ h ∈ extendHits coords ep chains,
          1e-6 < h.2 ∧ (∀ g ∈ extendHits coords ep chains, h.2 ≤ g.2) ∧
            computeExtend coords ep chains =
              some ⟨h.1, ep, coords.set (endpointIndex coords ep) h.1⟩ ∧
            (coords.set (endpointIndex coords ep) h.1).length = coords.length ∧
            (∀ i, i ≠ endpointIndex coords ep →
              (coords.set (endpointIndex coords ep) h.1)[i]? = coords[i]?) ∧
            (coords.set (endpointIndex coords ep) h.1)[endpointIndex coords ep]? =
              some h.1)) ∧
      computeExtend [(0,0),(5,0)] Endpoint.endp [[(8,-5),(8,5)]] =
        some ⟨(8,0), Endpoint.endp, [(0,0),(8,0)]⟩ := by
  have hnl : ¬ coords.length < 2 := not_lt.mpr hlen
  have hidx : endpointIndex coords ep < coords.length := by
    cases ep with
    | start => simp only [endpointIndex]; omega
    | endp => simp only [endpointIndex]; omega
  refine ⟨⟨fun hnil => ?_, fun hne => ?_⟩, ?_⟩
  · simp [computeExtend, if_neg hnl, hnil, selectNearest]
  · obtain ⟨h, hmem, hmin, heq⟩ := selectNearest_spec _ hne
    refine ⟨h, hmem, extendHits_t_pos coords ep chains h hmem, hmin, ?_, ?_, ?_, ?_⟩
    · simp [computeExtend, if_neg hnl, heq]
    · exact List.length_set ..
    · intro i hi
      exact List.getElem?_set_ne (fun he => hi he.symm)
    · exact List.getElem?_set_self hidx
  · norm_num [computeExtend, extendHits, selectNearest, raySegmentIntersection,
      getEndpointDirection, endpointIndex, segments, List.filterMap_cons]

/-- C6 (witness): the theorem applied to scenario B, where the hit list
is the single forward hit at `(8,0)` with ray parameter `3/5`. -/
theorem c6_computeExtend_nearest_witness :
    2 ≤ ([(0,0),(5,0)] : List Coordinate).length ∧
      extendHits [(0,0),(5,0)] Endpoint.endp [[(8,-5),(8,5)]] ≠ [] ∧
      ∃ h ∈ extendHits [(0,0),(5,0)] Endpoint.endp [[(8,-5),(8,5)]],
        1e-6 < h.2 ∧
          (∀ g ∈ extendHits [(0,0),(5,0)] Endpoint.endp [[(8,-5),(8,5)]], h.2 ≤ g.2) ∧
          computeExtend [(0,0),(5,0)] Endpoint.endp [[(8,-5),(8,5)]] =
            some ⟨h.1, Endpoint.endp,
              ([(0,0),(5,0)] : List Coordinate).set
                (endpointIndex [(0,0),(5,0)] Endpoint.endp) h.1⟩ ∧
          (([(0,0),(5,0)] : List Coordinate).set
              (endpointIndex [(0,0),(5,0)] Endpoint.endp) h.1).length =
            ([(0,0),(5,0)] : List Coordinate).length ∧
          (∀ i, i ≠ endpointIndex [(0,0),(5,0)] Endpoint.endp →
            (([(0,0),(5,0)] : List Coordinate).set
              (endpointIndex [(0,0),(5,0)] Endpoint.endp) h.1)[i]? =
              ([(0,0),(5,0)] : List Coordinate)[i]?) ∧
          (([(0,0),(5,0)] : List Coordinate).set
              (endpointIndex [(0,0),(5,0)] Endpoint.endp) h.1)[
            endpointIndex [(0,0),(5,0)] Endpoint.endp]? = some h.1 := by
  have hlen : 2 ≤ ([(0,0),(5,0)] : List Coordinate).length := by norm_num
  have hne : extendHits [(0,0),(5,0)] Endpoint.endp [[(8,-5),(8,5)]] ≠ [] := by
    norm_num [extendHits, raySegmentIntersection, getEndpointDirection,
      segments, List.filterMap_cons]
  exact ⟨hlen, hne,
    (c6_computeExtend_nearest [(0,0),(5,0)] Endpoint.endp [[(8,-5),(8,5)]] hlen).1.2 hne⟩

/-! ## C8 — intersection symmetry -/

theorem segmentIntersection_symm (a b c d : Coordinate) :
    segmentIntersection a b c d = segmentIntersection c d a b := by
  simp only [segmentIntersection]
  have hd : (d.1 - c.1) * (b.2 - a.2) - (d.2 - c.2) * (b.1 - a.1) =
      -((b.1 - a.1) * (d.2 - c.2) - (b.2 - a.2) * (d.1 - c.1)) := by ring
  rw [hd, abs_neg]
  by_cases hpar : |(b.1 - a.1) * (d.2 - c.2) - (b.2 - a.2) * (d.1 - c.1)| < 1e-10
  · rw [if_pos hpar, if_pos hpar]
  · rw [if_neg hpar, if_neg hpar]
    have hne : (b.1 - a.1) * (d.2 - c.2) - (b.2 - a.2) * (d.1 - c.1) ≠ 0 := by
      intro h0
      exact hpar (by rw [h0]; norm_num)
    have ht : ((a.1 - c.1) * (b.2 - a.2) - (a.2 - c.2) * (b.1 - a.1)) /
        -((b.1 - a.1) * (d.2 - c.2) - (b.2 - a.2) * (d.1 - c.1)) =
        ((c.1 - a.1) * (b.2 - a.2) - (c.2 - a.2) * (b.1 - a.1)) /
        ((b.1 - a.1) * (d.2 - c.2) - (b.2 - a.2) * (d.1 - c.1)) := by
      rw [div_neg, ← neg_div]
      congr 1
      ring
    have hu : ((a.1 - c.1) * (d.2 - c.2) - (a.2 - c.2) * (d.1 - c.1)) /
        -((b.1 - a.1) * (d.2 - c.2) - (b.2 - a.2) * (d.1 - c.1)) =
        ((c.1 - a.1) * (d.2 - c.2) - (c.2 - a.2) * (d.1 - c.1)) /
        ((b.1 - a.1) * (d.2 - c.2) - (b.2 - a.2) * (d.1 - c.1)) := by
      rw [div_neg, ← neg_div]
      congr 1
      ring
    rw [ht, hu]
    refine if_congr ⟨fun h => ⟨h.2.2.1, h.2.2.2, h.1, h.2.1⟩,
      fun h => ⟨h.2.2.1, h.2.2.2, h.1, h.2.1⟩⟩ ?_ rfl
    have hx : a.1 + ((c.1 - a.1) * (d.2 - c.2) - (c.2 - a.2) * (d.1 - c.1)) /
          ((b.1 - a.1) * (d.2 - c.2) - (b.2 - a.2) * (d.1 - c.1)) * (b.1 - a.1) =
        c.1 + ((c.1 - a.1) * (b.2 - a.2) - (c.2 - a.2) * (b.1 - a.1)) /
          ((b.1 - a.1) * (d.2 - c.2) - (b.2 - a.2) * (d.1 - c.1)) * (d.1 - c.1) := by
      field_simp
      ring
    have hy : a.2 + ((c.1 - a.1) * (d.2 - c.2) - (c.2 - a.2) * (d.1 - c.1)) /
          ((b.1 - a.1) * (d.2 - c.2) - (b.2 - a.2) * (d.1 - c.1)) * (b.2 - a.2) =
        c.2 + ((c.1 - a.1) * (b.2 - a.2) - (c.2 - a.2) * (b.1 - a.1)) /
          ((b.1 - a.1) * (d.2 - c.2) - (b.2 - a.2) * (d.1 - c.1)) * (d.2 - c.2) := by
      field_simp
      ring
    rw [hx, hy]

theorem mem_collectIntersections (tc chain : List Coordinate) (p : Coordinate) :
    p ∈ collectIntersections tc [chain] ↔
      ∃ s1 ∈ segments tc, ∃ s2 ∈ segments chain,
        segmentIntersection s1.1 s1.2 s2.1 s2.2 = some p := by
  simp [collectIntersections, List.mem_flatMap, List.mem_filterMap]

theorem dedupByKey_keys :
    ∀ (pts : List Coordinate) (seen : List (ℤ × ℤ)) (k : ℤ × ℤ),
      (k ∈ (dedupByKey pts seen).map roundKey) ↔
        (k ∈ pts.map roundKey ∧ k ∉ seen) := by
  intro pts
  induction pts with
  | nil => intro seen k; simp [dedupByKey]
  | cons pt rest ih =>
    intro seen k
    by_cases h : roundKey pt ∈ seen
    · rw [show dedupByKey (pt :: rest) seen = dedupByKey rest seen from by
        simp [dedupByKey, h]]
      rw [ih seen k]
      simp only [List.map_cons, List.mem_cons]
      constructor
      · rintro ⟨hk, hns⟩; exact ⟨Or.inr hk, hns⟩
      · rintro ⟨hk | hk, hns⟩
        · exact absurd (hk ▸ h) hns
        · exact ⟨hk, hns⟩
    · rw [show dedupByKey (pt :: rest) seen =
        pt :: dedupByKey rest (roundKey pt :: seen) from by simp [dedupByKey, h]]
      simp only [List.map_cons, List.mem_cons]
      rw [ih (roundKey pt :: seen) k]
      constructor
      · rintro (rfl | ⟨hk, hns⟩)
        · exact ⟨Or.inl rfl, h⟩
        · refine ⟨Or.inr hk, fun hkseen => hns (List.mem_cons_of_mem _ hkseen)⟩
      · rintro ⟨rfl | hk, hns⟩
        · exact Or.inl rfl
        · by_cases hkey : k = roundKey pt
          · exact Or.inl hkey
          · exact Or.inr ⟨hk, fun hmem => by
              rcases List.mem_cons.mp hmem with h1 | h1
              · exact hkey h1
              · exact hns h1⟩

theorem findAllIntersections_keys (tc : List Coordinate)
    (chains : List (List Coordinate)) (k : ℤ × ℤ) :
    (k ∈ (findAllIntersections tc chains).map fun i => roundKey i.coordinate) ↔
      k ∈ (collectIntersections tc chains).map roundKey := by
  simp only [findAllIntersections]
  have hperm :
      ((((dedupByKey (collectIntersections tc chains) []).map fun pt =>
          TrimIntersection.mk pt (parameterizeAlongLine tc pt)).mergeSort
        fun x y => decide (x.parameter ≤ y.parameter)).map
          fun i : TrimIntersection => roundKey i.coordinate).Perm
        (((dedupByKey (collectIntersections tc chains) []).map fun pt =>
          TrimIntersection.mk pt (parameterizeAlongLine tc pt)).map
          fun i : TrimIntersection => roundKey i.coordinate) :=
    (List.mergeSort_perm _ _).map _
  rw [hperm.mem_iff, List.map_map]
  rw [show ((fun i : TrimIntersection => roundKey i.coordinate) ∘ fun pt =>
      TrimIntersection.mk pt (parameterizeAlongLine tc pt)) = roundKey from rfl]
  rw [dedupByKey_keys]
  simp

/-- C8 (amended): `findAllIntersections(A, [B])` and
`findAllIntersections(B, [A])` find the same set of raw crossing points
(a coordinate is an accepted crossing of `A` against `B` iff it is one
of `B` against `A`), and report the same set of rounded dedup keys.
The *exact representative coordinates* kept after deduplication can
differ between the two directions when two distinct crossings share a
rounding key, because the two loop orders encounter them in a
different order. -/
theorem c8_intersection_symmetry (A B : List Coordinate) :
    (∀ p, p ∈ collectIntersections A [B] ↔ p ∈ collectIntersections B [A]) ∧
      ∀ k, ((k ∈ (findAllIntersections A [B]).map fun i => roundKey i.coordinate) ↔
        (k ∈ (findAllIntersections B [A]).map fun i => roundKey i.coordinate)) := by
  have hset : ∀ p, p ∈ collectIntersections A [B] ↔ p ∈ collectIntersections B [A] := by
    intro p
    rw [mem_collectIntersections, mem_collectIntersections]
    constructor
    · rintro ⟨s1, hs1, s2, hs2, hint⟩
      exact ⟨s2, hs2, s1, hs1, by rw [← segmentIntersection_symm]; exact hint⟩
    · rintro ⟨s2, hs2, s1, hs1, hint⟩
      exact ⟨s1, hs1, s2, hs2, by rw [segmentIntersection_symm]; exact hint⟩
  refine ⟨hset, fun k => ?_⟩
  rw [findAllIntersections_keys, findAllIntersections_keys]
  simp only [List.mem_map]
  constructor
  · rintro ⟨p, hp, rfl⟩
    exact ⟨p, (hset p).mp hp, rfl⟩
  · rintro ⟨p, hp, rfl⟩
    exact ⟨p, (hset p).mpr hp, rfl⟩

theorem sqrt_lt_zero_false (x : ℝ) : (Real.sqrt x < 0) ↔ False :=
  iff_false_intro (not_lt.mpr (Real.sqrt_nonneg x))

/-- C8 (counterexample): the *deduplicated* coordinate sets of the two
directions can differ.  Target `A = [[-0.99998,0],[2e-5,0],[1.00002,0]]`
and `B = [[3e-5,1],[3e-5,-1],[5e-6,1]]` cross at the two distinct points
`(1.75e-5, 0)` (segment 0 of `A` × segment 1 of `B`) and `(3e-5, 0)`
(segment 1 of `A` × segment 0 of `B`), which share the 4-decimal
rounding key `(0, 0)`.  With `A` as target the loop meets `(1.75e-5,0)`
first and drops `(3e-5,0)` as a duplicate; with `B` as target the order
is reversed, so the two calls report different intersection
coordinates. -/
theorem c8_scenario_targetA :
    ((findAllIntersections [(-0.99998, 0), (2e-5, 0), (1.00002, 0)]
        [[(3e-5, 1), (3e-5, -1), (5e-6, 1)]]).map (fun i => i.coordinate) =
      [(1.75e-5, 0)]) := by
  norm_num [findAllIntersections, collectIntersections, segments, segmentIntersection,
    List.filterMap_cons, dedupByKey, roundKey, round_eq,
    parameterizeAlongLine, parameterizeAux, segProj, sqrt_lt_zero_false,
    Real.sqrt_zero, Real.sqrt_one,
    sqrt_eval (by norm_num : (0:ℝ) ≤ 2) (by norm_num : (2:ℝ)^2 = 4)]

theorem c8_scenario_targetB :
    ((findAllIntersections [(3e-5, 1), (3e-5, -1), (5e-6, 1)]
        [[(-0.99998, 0), (2e-5, 0), (1.00002, 0)]]).map (fun i => i.coordinate) =
      [(3e-5, 0)]) := by
  norm_num [findAllIntersections, collectIntersections, segments, segmentIntersection,
    List.filterMap_cons, dedupByKey, roundKey, round_eq,
    parameterizeAlongLine, parameterizeAux, segProj, sqrt_lt_zero_false,
    Real.sqrt_zero, Real.sqrt_one,
    sqrt_eval (by norm_num : (0:ℝ) ≤ 2) (by norm_num : (2:ℝ)^2 = 4)]

theorem c8_intersection_symmetry_counterexample :
    ((findAllIntersections [(-0.99998, 0), (2e-5, 0), (1.00002, 0)]
        [[(3e-5, 1), (3e-5, -1), (5e-6, 1)]]).map (fun i => i.coordinate) =
      [(1.75e-5, 0)]) ∧
      ((findAllIntersections [(3e-5, 1), (3e-5, -1), (5e-6, 1)]
          [[(-0.99998, 0), (2e-5, 0), (1.00002, 0)]]).map (fun i => i.coordinate) =
        [(3e-5, 0)]) ∧
      ¬ ((1.75e-5 : ℝ), (0 : ℝ)) = ((3e-5 : ℝ), (0 : ℝ)) := by
  exact ⟨c8_scenario_targetA, c8_scenario_targetB, by norm_num⟩

/-! ## C7 — parameterization round-trip -/

theorem segments_cons (a b : Coordinate) (rest : List Coordinate) :
    segments (a :: b :: rest) = (a, b) :: segments (b :: rest) := rfl

theorem pointAt_cons (a b : Coordinate) (rest : List Coordinate) (t : ℝ) :
    pointAt (a :: b :: rest) t =
      if t ≤ dist a b then
        (a.1 + (t / dist a b) * (b.1 - a.1), a.2 + (t / dist a b) * (b.2 - a.2))
      else pointAt (b :: rest) (t - dist a b) := rfl

theorem candList_cons (point a b : Coordinate)
    (rest : List (Coordinate × Coordinate)) (acc : ℝ) :
    candList point ((a, b) :: rest) acc =
      (acc + (segProj point a b).1, (segProj point a b).2.1) ::
        candList point rest (acc + (segProj point a b).2.2) := rfl

/-- C7 (counterexample): on the self-intersecting polyline
`[[0,0],[2,0],[2,1],[1,1],[1,-1]]` (total length 6) the point at
arc-length `t = 5` is `(1,0)`, which also lies on the *first* segment at
arc-length 1; the scan keeps the globally closest (first) projection, so
`parameterizeAlongLine(coords, pointAt(coords, 5)) = 1`, an error of 4 —
the round-trip does not hold within any plausible tolerance. -/
theorem c7_roundtrip_counterexample :
    pointAt [(0,0),(2,0),(2,1),(1,1),(1,-1)] 5 = (1, 0) ∧
      parameterizeAlongLine [(0,0),(2,0),(2,1),(1,1),(1,-1)] (1, 0) = 1 ∧
      (0:ℝ) ≤ 5 ∧ (5:ℝ) ≤ totalArcLength [(0,0),(2,0),(2,1),(1,1),(1,-1)] ∧
      ¬ |parameterizeAlongLine [(0,0),(2,0),(2,1),(1,1),(1,-1)]
          (pointAt [(0,0),(2,0),(2,1),(1,1),(1,-1)] 5) - 5| ≤ 1 := by
  have sqrt4 : Real.sqrt 4 = 2 :=
    sqrt_eval (by norm_num : (0:ℝ) ≤ 2) (by norm_num : (2:ℝ)^2 = 4)
  have hpt : pointAt [(0,0),(2,0),(2,1),(1,1),(1,-1)] 5 = (1, 0) := by
    norm_num [pointAt, dist, sqrt4, Real.sqrt_one]
  have hpar : parameterizeAlongLine [(0,0),(2,0),(2,1),(1,1),(1,-1)] (1, 0) = 1 := by
    norm_num [parameterizeAlongLine, parameterizeAux, segProj, segments,
      sqrt_lt_zero_false, Real.sqrt_zero, Real.sqrt_one, sqrt4]
  have htot : totalArcLength [(0,0),(2,0),(2,1),(1,1),(1,-1)] = 6 := by
    norm_num [totalArcLength, dist, sqrt4, Real.sqrt_one]
  refine ⟨hpt, hpar, by norm_num, by rw [htot]; norm_num, ?_⟩
  rw [hpt, hpar]
  norm_num

theorem sqrt_dir_eq_dist (a b : Coordinate) :
    Real.sqrt ((b.1 - a.1) * (b.1 - a.1) + (b.2 - a.2) * (b.2 - a.2)) = dist a b :=
  (dist_eq_sqrt_dir a b).symm

theorem dir_sq_eq (a b : Coordinate) :
    (b.1 - a.1) * (b.1 - a.1) + (b.2 - a.2) * (b.2 - a.2) = dist a b * dist a b := by
  conv_rhs => rw [← sqrt_dir_eq_dist a b]
  exact (Real.mul_self_sqrt
    (add_nonneg (mul_self_nonneg _) (mul_self_nonneg _))).symm

theorem segProj_on_segment (a b : Coordinate) (t : ℝ) (ht0 : 0 ≤ t)
    (htL : t ≤ dist a b) (hL : dist a b > 1e-10) :
    segProj (a.1 + t / dist a b * (b.1 - a.1), a.2 + t / dist a b * (b.2 - a.2)) a b =
      (t, 0, dist a b) := by
  have hLpos : (0:ℝ) < dist a b := lt_trans (by norm_num) hL
  have hLne : dist a b ≠ 0 := ne_of_gt hLpos
  have hSne : dist a b * dist a b ≠ 0 := mul_ne_zero hLne hLne
  simp only [segProj, sqrt_dir_eq_dist]
  rw [if_pos hL]
  have hdot : (a.1 + t / dist a b * (b.1 - a.1) - a.1) * (b.1 - a.1) +
      (a.2 + t / dist a b * (b.2 - a.2) - a.2) * (b.2 - a.2) =
      t / dist a b * (dist a b * dist a b) := by
    rw [← dir_sq_eq]; ring
  rw [hdot, mul_div_assoc, div_self hSne, mul_one]
  have hfr0 : 0 ≤ t / dist a b := div_nonneg ht0 (le_of_lt hLpos)
  have hfr1 : t / dist a b ≤ 1 := (div_le_one hLpos).mpr htL
  rw [min_eq_right hfr1, max_eq_right hfr0]
  have hx : (a.1 + t / dist a b * (b.1 - a.1) -
      (a.1 + t / dist a b * (b.1 - a.1))) ^ 2 +
      (a.2 + t / dist a b * (b.2 - a.2) - (a.2 + t / dist a b * (b.2 - a.2))) ^ 2 =
      0 := by ring
  rw [hx, Real.sqrt_zero, div_mul_cancel₀ t hLne]

theorem segProj_at_same (a b : Coordinate) (hz : dist a b = 0) :
    segProj a a b = (0, 0, 0) := by
  have hnpos : ¬ Real.sqrt ((b.1 - a.1) * (b.1 - a.1) + (b.2 - a.2) * (b.2 - a.2)) >
      1e-10 := by
    rw [sqrt_dir_eq_dist, hz]; norm_num
  simp only [segProj, if_neg hnpos]
  rw [sqrt_dir_eq_dist, hz]
  have hx : (a.1 - (a.1 + 0 * (b.1 - a.1))) ^ 2 +
      (a.2 - (a.2 + 0 * (b.2 - a.2))) ^ 2 = 0 := by ring
  rw [hx, Real.sqrt_zero]
  norm_num

theorem pointAt_exists_zero_cand :
    ∀ (coords : List Coordinate) (t acc : ℝ),
      2 ≤ coords.length → 0 ≤ t → t ≤ totalArcLength coords →
      (∀ s ∈ segments coords, dist s.1 s.2 = 0 ∨ dist s.1 s.2 > 1e-10) →
      ∃ c ∈ candList (pointAt coords t) (segments coords) acc,
        c.2 = 0 ∧ c.1 = acc + t
  | [], _, _, hlen, _, _, _ => by simp at hlen
  | [a], _, _, hlen, _, _, _ => by simp at hlen
  | a :: b :: rest, t, acc, _, ht0, htT, hsegs => by
    rcases le_or_lt t (dist a b) with hle | hgt
    · have hpt : pointAt (a :: b :: rest) t =
          (a.1 + t / dist a b * (b.1 - a.1), a.2 + t / dist a b * (b.2 - a.2)) := by
        rw [pointAt_cons, if_pos hle]
      rcases hsegs (a, b) (by rw [segments_cons]; exact List.mem_cons_self _ _) with
        hz | hpos
      · have ht00 : t = 0 := le_antisymm (hz ▸ hle) ht0
        have hpa : pointAt (a :: b :: rest) t = a := by
          rw [hpt, ht00]
          simp
        rw [segments_cons, hpa, candList_cons, segProj_at_same a b hz]
        exact ⟨(acc + 0, 0), List.mem_cons_self _ _, rfl, by rw [ht00]⟩
      · have hproj := segProj_on_segment a b t ht0 hle hpos
        rw [segments_cons, hpt, candList_cons, hproj]
        exact ⟨(acc + t, 0), List.mem_cons_self _ _, rfl, rfl⟩
    · cases rest with
      | nil =>
        exfalso
        have htot : totalArcLength [a, b] = dist a b := by
          simp [totalArcLength]
        rw [htot] at htT
        linarith
      | cons r rest' =>
        have hpt : pointAt (a :: b :: r :: rest') t =
            pointAt (b :: r :: rest') (t - dist a b) := by
          rw [pointAt_cons, if_neg (not_le.mpr hgt)]
        have htT' : t - dist a b ≤ totalArcLength (b :: r :: rest') := by
          have hrw : totalArcLength (a :: b :: r :: rest') =
              dist a b + totalArcLength (b :: r :: rest') := rfl
          rw [hrw] at htT
          linarith
        obtain ⟨c, hc, hc2, hc1⟩ := pointAt_exists_zero_cand (b :: r :: rest')
          (t - dist a b) (acc + dist a b) (by simp) (by linarith) htT'
          (fun s hs => hsegs s (by rw [segments_cons]; exact List.mem_cons_of_mem _ hs))
        refine ⟨c, ?_, hc2, by rw [hc1]; ring⟩
        rw [segments_cons, hpt, candList_cons]
        refine List.mem_cons_of_mem _ ?_
        have hlen2 : (segProj (pointAt (b :: r :: rest') (t - dist a b)) a b).2.2 =
            dist a b := by
          simp only [segProj]
          exact sqrt_dir_eq_dist a b
        rw [hlen2]
        exact hc

theorem parameterizeAux_cons (point a b : Coordinate)
    (rest : List (Coordinate × Coordinate)) (ct : ℝ) (cd : Option ℝ) (acc : ℝ) :
    parameterizeAux point ((a, b) :: rest) ct cd acc =
      if (match cd with
          | none => true
          | some c => decide ((segProj point a b).2.1 < c)) = true then
        parameterizeAux point rest (acc + (segProj point a b).1)
          (some (segProj point a b).2.1) (acc + (segProj point a b).2.2)
      else parameterizeAux point rest ct cd (acc + (segProj point a b).2.2) := rfl

theorem parameterizeAux_eq (point : Coordinate) (t : ℝ) :
    ∀ (segs : List (Coordinate × Coordinate)) (ct : ℝ) (cd : Option ℝ) (acc : ℝ),
      (∀ x, cd = some x → 0 ≤ x ∧ (x = 0 → ct = t)) →
      ((∃ c ∈ candList point segs acc, c.2 = 0) ∨ (cd = some 0 ∧ ct = t)) →
      (∀ c ∈ candList point segs acc, c.2 = 0 → c.1 = t) →
      parameterizeAux point segs ct cd acc = t := by
  intro segs
  induction segs with
  | nil =>
    intro ct cd acc _ hex _
    rcases hex with ⟨c, hc, _⟩ | ⟨_, hct⟩
    · simp [candList] at hc
    · exact hct
  | cons s rest ih =>
    obtain ⟨a, b⟩ := s
    intro ct cd acc hcd hex hzero
    have hd0 : 0 ≤ (segProj point a b).2.1 := Real.sqrt_nonneg _
    have hhead : ((acc + (segProj point a b).1, (segProj point a b).2.1) : ℝ × ℝ) ∈
        candList point ((a, b) :: rest) acc := by
      rw [candList_cons]; exact List.mem_cons_self _ _
    have hheadT : (segProj point a b).2.1 = 0 → acc + (segProj point a b).1 = t :=
      fun h0 => hzero _ hhead h0
    have hzero' : ∀ c ∈ candList point rest (acc + (segProj point a b).2.2),
        c.2 = 0 → c.1 = t := fun c hc =>
      hzero c (by rw [candList_cons]; exact List.mem_cons_of_mem _ hc)
    rw [parameterizeAux_cons]
    rcases cd with _ | v
    · rw [if_pos rfl]
      refine ih _ _ _ ?_ ?_ hzero'
      · rintro x hx
        injection hx with hx
        subst hx
        exact ⟨hd0, hheadT⟩
      · rcases hex with ⟨c, hc, hc2⟩ | ⟨habs, _⟩
        · rw [candList_cons] at hc
          rcases List.mem_cons.mp hc with rfl | hc'
          · exact Or.inr ⟨congrArg some hc2, hheadT hc2⟩
          · exact Or.inl ⟨c, hc', hc2⟩
        · cases habs
    · by_cases hlt : (segProj point a b).2.1 < v
      · rw [if_pos (decide_eq_true hlt)]
        refine ih _ _ _ ?_ ?_ hzero'
        · rintro x hx
          injection hx with hx
          subst hx
          exact ⟨hd0, hheadT⟩
        · rcases hex with ⟨c, hc, hc2⟩ | ⟨hv, _⟩
          · rw [candList_cons] at hc
            rcases List.mem_cons.mp hc with rfl | hc'
            · exact Or.inr ⟨congrArg some hc2, hheadT hc2⟩
            · exact Or.inl ⟨c, hc', hc2⟩
          · injection hv with hv
            rw [hv] at hlt
            exact absurd hlt (not_lt.mpr hd0)
      · rw [if_neg (fun h => hlt (of_decide_eq_true h))]
        refine ih _ _ _ hcd ?_ hzero'
        rcases hex with ⟨c, hc, hc2⟩ | hright
        · rw [candList_cons] at hc
          rcases List.mem_cons.mp hc with rfl | hc'
          · have hd00 : (segProj point a b).2.1 = 0 := hc2
            have hvle : v ≤ 0 := by rw [← hd00]; exact not_lt.mp hlt
            have hv0 : v = 0 := le_antisymm hvle (hcd v rfl).1
            exact Or.inr ⟨by rw [hv0], (hcd v rfl).2 hv0⟩
          · exact Or.inl ⟨c, hc', hc2⟩
        · exact Or.inr hright

/-- C7 (amended): the parameterization round-trip
`parameterizeAlongLine(coords, pointAt(coords, t)) = t` holds *exactly*
for every `t ∈ [0, totalLength]` provided (i) no segment has a length in
the degenerate band `(0, 1e-10]`, and (ii) the polyline passes through
`pointAt(coords, t)` only at arc-length `t` — i.e. every segment whose
clamped projection of the point has zero distance contributes the
arc-length parameter `t`.  Without (ii) the round-trip fails: on a
self-intersecting polyline the scan keeps the *first* zero-distance
projection, which can lie at a smaller parameter (see the
counterexample). -/
theorem c7_parameterize_roundtrip (coords : List Coordinate) (t : ℝ)
    (hlen : 2 ≤ coords.length) (ht0 : 0 ≤ t)
    (htT : t ≤ totalArcLength coords)
    (hsegs : ∀ s ∈ segments coords, dist s.1 s.2 = 0 ∨ dist s.1 s.2 > 1e-10)
    (hunique : ∀ c ∈ candList (pointAt coords t) (segments coords) 0,
      c.2 = 0 → c.1 = t) :
    parameterizeAlongLine coords (pointAt coords t) = t := by
  obtain ⟨c, hc, hc2, hc1⟩ :=
    pointAt_exists_zero_cand coords t 0 hlen ht0 htT hsegs
  exact parameterizeAux_eq (pointAt coords t) t (segments coords) 0 none 0
    (by rintro x hx; cases hx) (Or.inl ⟨c, hc, hc2⟩) hunique

/-- C7 (witness): the amended theorem applied to the polyline
`[[0,0],[10,0]]` and `t = 2`, whose point is `(2,0)` and whose only
zero-distance projection is at parameter 2. -/
theorem c7_parameterize_roundtrip_witness :
    2 ≤ ([(0,0),(10,0)] : List Coordinate).length ∧ (0:ℝ) ≤ 2 ∧
      (2:ℝ) ≤ totalArcLength [(0,0),(10,0)] ∧
      (∀ s ∈ segments [(0,0),(10,0)], dist s.1 s.2 = 0 ∨ dist s.1 s.2 > 1e-10) ∧
      (∀ c ∈ candList (pointAt [(0,0),(10,0)] 2) (segments [(0,0),(10,0)]) 0,
        c.2 = 0 → c.1 = 2) ∧
      parameterizeAlongLine [(0,0),(10,0)] (pointAt [(0,0),(10,0)] 2) = 2 := by
  have sqrt100 : Real.sqrt 100 = 10 :=
    sqrt_eval (by norm_num : (0:ℝ) ≤ 10) (by norm_num : (10:ℝ)^2 = 100)
  have h1 : 2 ≤ ([(0,0),(10,0)] : List Coordinate).length := by norm_num
  have h2 : (0:ℝ) ≤ 2 := by norm_num
  have h3 : (2:ℝ) ≤ totalArcLength [(0,0),(10,0)] := by
    norm_num [totalArcLength, dist, sqrt100]
  have h4 : ∀ s ∈ segments ([(0,0),(10,0)] : List Coordinate),
      dist s.1 s.2 = 0 ∨ dist s.1 s.2 > 1e-10 := by
    intro s hs
    simp only [segments] at hs
    norm_num at hs
    subst hs
    right
    norm_num [dist, sqrt100]
  have h5 : ∀ c ∈ candList (pointAt [(0,0),(10,0)] 2)
      (segments [(0,0),(10,0)]) 0, c.2 = 0 → c.1 = 2 := by
    have hpt : pointAt [(0,0),(10,0)] 2 = (2, 0) := by
      norm_num [pointAt, dist, sqrt100]
    rw [hpt]
    have hcand : candList ((2:ℝ), (0:ℝ)) (segments [(0,0),(10,0)]) 0 = [(2, 0)] := by
      norm_num [candList, segments, segProj, Real.sqrt_zero, sqrt100]
    rw [hcand]
    intro c hc _
    norm_num at hc
    subst hc
    norm_num
  exact ⟨h1, h2, h3, h4, h5,
    c7_parameterize_roundtrip [(0,0),(10,0)] 2 h1 h2 h3 h4 h5⟩

end DsMapTool
